import Mathlib

/-!
# go-listmonk request builder: a shallow embedding of `request.go`

The file models the request builder of `request.go` (the `request` struct, its
parameter setters, `validate`, `toHttpRequest` and the two `RequestOption`
constructors) together with the pieces of the Go standard library that the
builder calls: `url.Values`, `url.QueryEscape`, `http.Header`,
`textproto.CanonicalMIMEHeaderKey`, `fmt.Sprintf("%v", _)`, `json.Marshal` on
slices, `reflect.TypeOf(_).Kind()` and `http.NewRequest`.

Conventions.

* A Go map that may be `nil` is an `Option`: `none` is the nil map.
* A Go `map[string][]string` is an association list read through `get`; every
  list denotes a map (an earlier entry shadows a later one with the same key),
  and `put` removes all older entries of the key it writes.
* Strings are compared and escaped through their UTF-8 bytes, as Go does.
* The header map is shared between the builder and the rendered request, so
  header maps live in a `Heap` and are referred to by address.  The query and
  form maps are only reached through the builder and are kept by value.
* A run of Go code ends in `Result.ok`, in a returned error (`Result.error`)
  or in a runtime panic (`Result.panic`).  The state an aborted call leaves
  behind is not modelled.
* The verdict of `url.Parse` on a URL text is a parameter (`urlParse`) of
  `http.NewRequest` and `toHttpRequest`.  Of an accepted text the parsed URL keeps
  the fragment (after the first `#`), the raw query (after the first `?`) and the
  rest, scheme, authority and path, as one text.
-/

set_option autoImplicit false

/-! ## Bytes of a string -/

/-- UTF-8 encoding of one code point, as a list of byte values. -/
def utf8EncodeChar (c : Nat) : List Nat :=
  if c < 0x80 then [c]
  else if c < 0x800 then [0xC0 + c / 64, 0x80 + c % 64]
  else if c < 0x10000 then [0xE0 + c / 4096, 0x80 + (c / 64) % 64, 0x80 + c % 64]
  else [0xF0 + c / 262144, 0x80 + (c / 4096) % 64, 0x80 + (c / 64) % 64, 0x80 + c % 64]

/-- The bytes of a Go string (its UTF-8 encoding). -/
def bytesOf (s : String) : List Nat :=
  s.toList.flatMap (fun c => utf8EncodeChar c.toNat)

/-- Lexicographic `<=` on byte lists: Go's string comparison. -/
def bytesLe : List Nat → List Nat → Bool
  | [], _ => true
  | _ :: _, [] => false
  | a :: as, b :: bs => if a < b then true else if b < a then false else bytesLe as bs

/-- Go's `s <= t` on strings. -/
def strLe (s t : String) : Bool := bytesLe (bytesOf s) (bytesOf t)

/-- Insert a key into a list sorted by `strLe`. -/
def insertKey (k : String) : List String → List String
  | [] => [k]
  | x :: xs => if strLe k x then k :: x :: xs else x :: insertKey k xs

/-- Go's `slices.Sort` on a list of strings (as an insertion sort). -/
def sortKeys : List String → List String
  | [] => []
  | x :: xs => insertKey x (sortKeys xs)

/-- Remove repeated strings, keeping the first occurrence of each. -/
def dedupKeys : List String → List String
  | [] => []
  | x :: xs => x :: (dedupKeys xs).filter (fun y => y != x)

/-! ## `net/url` -/

namespace url

/-- Upper-case hexadecimal digit (`upperhex[n]`). -/
def upperhex (n : Nat) : Char :=
  if n < 10 then Char.ofNat (48 + n) else Char.ofNat (55 + n)

/-- The function `shouldEscape(c, encodeQueryComponent)`: only ASCII letters, digits
and `-`, `_`, `.`, `~` are left alone. -/
def shouldEscape (c : Nat) : Bool :=
  if (97 ≤ c ∧ c ≤ 122) ∨ (65 ≤ c ∧ c ≤ 90) ∨ (48 ≤ c ∧ c ≤ 57) then false
  else if c = 45 ∨ c = 95 ∨ c = 46 ∨ c = 126 then false
  else true

/-- One byte of `escape(s, encodeQueryComponent)`. -/
def escapeByte (c : Nat) : List Char :=
  if c = 32 then [Char.ofNat 43]
  else if shouldEscape c then [Char.ofNat 37, upperhex (c / 16), upperhex (c % 16)]
  else [Char.ofNat c]

/-- The function `url.QueryEscape`. -/
def QueryEscape (s : String) : String :=
  String.mk ((bytesOf s).flatMap escapeByte)

/-- The type `url.Values` (also the shape of `http.Header`): `map[string][]string`. -/
abbrev Values := List (String × List String)

namespace Values

/-- Map lookup with presence: `vs, ok := m[k]`. -/
def get (m : Values) (k : String) : Option (List String) :=
  match m with
  | [] => none
  | (k', vs) :: rest => if k' = k then some vs else get rest k

/-- Map read `m[k]`: the nil slice when the key is absent. -/
def index (m : Values) (k : String) : List String := (get m k).getD []

/-- Map write `m[k] = vs`. -/
def put (m : Values) (k : String) (vs : List String) : Values :=
  (k, vs) :: m.filter (fun e => e.1 != k)

/-- The keys of the map, each once. -/
def keys (m : Values) : List String := dedupKeys (m.map Prod.fst)

/-- The builtin `len(m)`: the number of keys. -/
def len (m : Values) : Nat := (keys m).length

/-- The method `Values.Set`: `v[key] = []string{value}`. -/
def Set (m : Values) (key value : String) : Values := put m key [value]

/-- The method `Values.Add`: `v[key] = append(v[key], value)`. -/
def Add (m : Values) (key value : String) : Values := put m key (index m key ++ [value])

/-- The `(key, value)` pairs in the order `Values.Encode` writes them: keys sorted,
the values of one key in slice order. -/
def encodePairs (m : Values) : List (String × String) :=
  (sortKeys (keys m)).flatMap (fun k => (index m k).map (fun v => (k, v)))

/-- The method `Values.Encode`: the pairs as `key=value`, both query-escaped, joined
by `&`.  A nil map is encoded through `[]` (Go returns `""` for `len(v) == 0`). -/
def Encode (m : Values) : String :=
  "&".intercalate ((encodePairs m).map (fun p => QueryEscape p.1 ++ "=" ++ QueryEscape p.2))

end Values

end url

/-- The struct `url.URL` as `url.Parse` fills it, in four parts: scheme, authority and
path are kept together as the text they were written in (`SchemeHostPath`); `ForceQuery`,
`RawQuery` and `Fragment` are the fields of that name (the fragment as written, without
unescaping). -/
structure url.URL where
  SchemeHostPath : String
  ForceQuery : Bool
  RawQuery : String
  Fragment : String
  deriving DecidableEq, Repr

/-- The fragment `url.Parse` cuts off first: what follows the first `#`. -/
def url.fragmentOf (text : String) : String :=
  String.mk ((text.toList.dropWhile (fun c => c != Char.ofNat 35)).drop 1)

/-- The part of a URL text in front of its query: what stands before the first `?`
and before the first `#`. -/
def url.beforeQuery (text : String) : String :=
  String.mk ((text.toList.takeWhile (fun c => c != Char.ofNat 35)).takeWhile
    (fun c => c != Char.ofNat 63))

/-- The flag `ForceQuery`: the text in front of the fragment ends in `?` and holds no
other `?`. -/
def url.forceQueryOf (text : String) : Bool :=
  ((text.toList.takeWhile (fun c => c != Char.ofNat 35)).dropWhile
    (fun c => c != Char.ofNat 63)) = [Char.ofNat 63]

/-- The query part `url.Parse` finds in a URL text: what stands between the first
`?` and the first `#`. -/
def url.rawQueryOf (text : String) : String :=
  String.mk (((text.toList.takeWhile (fun c => c != Char.ofNat 35)).dropWhile
    (fun c => c != Char.ofNat 63)).drop 1)

/-- The URL that `url.Parse` returns for a text it accepts. -/
def url.parts (text : String) : url.URL :=
  { SchemeHostPath := url.beforeQuery text, ForceQuery := url.forceQueryOf text,
    RawQuery := url.rawQueryOf text, Fragment := url.fragmentOf text }

/-- The method `URL.String`: the target the request is sent to, with `?` and the raw
query when there is one (or `ForceQuery` is set) and `#` and the fragment when there is
one. -/
def url.URL.String (u : url.URL) : String :=
  u.SchemeHostPath ++ (if u.ForceQuery ∨ u.RawQuery ≠ "" then "?" ++ u.RawQuery else "")
    ++ (if u.Fragment ≠ "" then "#" ++ u.Fragment else "")

/-- The table `isTokenTable`: the bytes allowed in an HTTP token (header field names and
methods). -/
def isTokenByte (c : Nat) : Bool :=
  (48 ≤ c ∧ c ≤ 57) ∨ (65 ≤ c ∧ c ≤ 90) ∨ (97 ≤ c ∧ c ≤ 122) ∨
    c ∈ [33, 35, 36, 37, 38, 39, 42, 43, 45, 46, 94, 95, 96, 124, 126]

namespace textproto

/-- The loop of `canonicalMIMEHeaderKey`: upper case for the first letter and after
each dash, lower case elsewhere. -/
def canonLoop : Bool → List Nat → List Nat
  | _, [] => []
  | upper, c :: cs =>
    let c1 := if upper ∧ 97 ≤ c ∧ c ≤ 122 then c - 32
              else if ¬ upper ∧ 65 ≤ c ∧ c ≤ 90 then c + 32 else c
    c1 :: canonLoop (c1 = 45) cs

/-- The function `textproto.CanonicalMIMEHeaderKey`: a key holding a byte that is no
token byte is returned unchanged. -/
def CanonicalMIMEHeaderKey (s : String) : String :=
  if (bytesOf s).all isTokenByte then
    String.mk ((canonLoop true (bytesOf s)).map Char.ofNat)
  else s

end textproto

namespace http

/-- The type `http.Header`, a `map[string][]string` (the contents of one header map). -/
abbrev Header := url.Values

/-- The method `Header.Set` on a non-nil map. -/
def Header.Set (h : Header) (key value : String) : Header :=
  url.Values.Set h (textproto.CanonicalMIMEHeaderKey key) value

/-- The method `Header.Add` on a non-nil map. -/
def Header.Add (h : Header) (key value : String) : Header :=
  url.Values.Add h (textproto.CanonicalMIMEHeaderKey key) value

/-- The method `Header.Values`: the values stored under the canonical form of `key`. -/
def Header.Values (h : Header) (key : String) : List String :=
  url.Values.index h (textproto.CanonicalMIMEHeaderKey key)

end http

/-! ## The heap of header maps -/

/-- The header maps allocated so far; the address of a map is its position. -/
structure Heap where
  maps : List http.Header
  deriving DecidableEq, Repr

namespace Heap

/-- Allocate a new map holding `m`; returns the new heap and the address. -/
def alloc (h : Heap) (m : http.Header) : Heap × Nat := (⟨h.maps ++ [m]⟩, h.maps.length)

/-- The contents of the map at address `a`. -/
def read (h : Heap) (a : Nat) : http.Header := h.maps.getD a []

/-- Replace the contents of the map at address `a`. -/
def write (h : Heap) (a : Nat) (m : http.Header) : Heap := ⟨h.maps.set a m⟩

/-- The contents behind a header reference: `none` for the nil map. -/
def deref (h : Heap) (ref : Option Nat) : Option http.Header := ref.map h.read

end Heap

/-! ## Outcomes, values, `fmt`, `reflect`, `encoding/json` -/

/-- How a run of Go code ends. -/
inductive Result (α : Type) where
  | ok (val : α)
  | error (err : String)
  | panic (msg : String)
  deriving DecidableEq, Repr

/-- The Go values (`interface{}`) a parameter can be.  Integers of every integer type
are `int`; `ints` is a slice of an integer type other than `byte`, `bytes` a `[]byte`
(each element read modulo 256), `strs` a `[]string` (`none` is the nil slice).  `slice`
and `other` stand for the values whose text the
model does not compute: a slice of any other element type, and a non-nil value of any
other non-slice kind (float, map, struct, pointer, ...), each given by its `%v` text
and by what `json.Marshal` returns for it (`none`: an error). -/
inductive GoValue where
  | nil
  | bool (b : Bool)
  | int (i : Int)
  | str (s : String)
  | ints (xs : Option (List Int))
  | bytes (xs : Option (List Nat))
  | strs (xs : Option (List String))
  | slice (shown : String) (marshal : Option String)
  | other (shown : String) (marshal : Option String)
  deriving DecidableEq, Repr

namespace reflect

/-- The kinds of `reflect.Kind` the model tells apart. -/
inductive Kind where
  | Bool | Int | String | Slice | Other
  deriving DecidableEq, Repr

/-- The function `reflect.TypeOf`, reduced to the kind of the type; `none` is the nil
`reflect.Type` that `TypeOf(nil)` returns. -/
def TypeOf : GoValue → Option Kind
  | .nil => none
  | .bool _ => some .Bool
  | .int _ => some .Int
  | .str _ => some .String
  | .ints _ => some .Slice
  | .bytes _ => some .Slice
  | .strs _ => some .Slice
  | .slice _ _ => some .Slice
  | .other _ _ => some .Other

end reflect

namespace fmt

/-- The text `fmt.Sprintf("%v", value)`. -/
def Sprintf_v : GoValue → String
  | .nil => "<nil>"
  | .bool b => if b then "true" else "false"
  | .int i => toString i
  | .str s => s
  | .ints none => "[]"
  | .ints (some xs) => "[" ++ " ".intercalate (xs.map toString) ++ "]"
  | .bytes none => "[]"
  | .bytes (some xs) => "[" ++ " ".intercalate (xs.map (fun b => toString (b % 256))) ++ "]"
  | .strs none => "[]"
  | .strs (some xs) => "[" ++ " ".intercalate xs ++ "]"
  | .slice shown _ => shown
  | .other shown _ => shown

end fmt

namespace json

/-- Lower-case hexadecimal digit (`hex[n]`). -/
def hex (n : Nat) : Char :=
  if n < 10 then Char.ofNat (48 + n) else Char.ofNat (87 + n)

/-- One character of a JSON string as `appendString` writes it with HTML escaping on
(Go 1.22 and later, which write `\b` and `\f` in short form). -/
def escapeChar (c : Char) : List Char :=
  let n := c.toNat
  if n = 34 ∨ n = 92 then [Char.ofNat 92, c]
  else if n = 8 then [Char.ofNat 92, Char.ofNat 98]
  else if n = 12 then [Char.ofNat 92, Char.ofNat 102]
  else if n = 10 then [Char.ofNat 92, Char.ofNat 110]
  else if n = 13 then [Char.ofNat 92, Char.ofNat 114]
  else if n = 9 then [Char.ofNat 92, Char.ofNat 116]
  else if n < 32 ∨ n = 60 ∨ n = 62 ∨ n = 38 then
    [Char.ofNat 92, Char.ofNat 117, Char.ofNat 48, Char.ofNat 48, hex (n / 16), hex (n % 16)]
  else if n = 0x2028 ∨ n = 0x2029 then
    [Char.ofNat 92, Char.ofNat 117, Char.ofNat 50, Char.ofNat 48, Char.ofNat 50, hex (n % 16)]
  else [c]

/-- A Go string as a JSON string literal. -/
def quote (s : String) : String :=
  "\"" ++ String.mk (s.toList.flatMap escapeChar) ++ "\""

/-- One character of the standard base64 alphabet (`A-Z`, `a-z`, `0-9`, `+`, `/`). -/
def base64Char (n : Nat) : Char :=
  if n < 26 then Char.ofNat (65 + n)
  else if n < 52 then Char.ofNat (71 + n)
  else if n < 62 then Char.ofNat (n - 4)
  else if n = 62 then Char.ofNat 43
  else Char.ofNat 47

/-- The encoding `base64.StdEncoding` of a byte list, with `=` padding. -/
def base64 : List Nat → List Char
  | [] => []
  | [a] => [base64Char (a / 4), base64Char (a % 4 * 16), Char.ofNat 61, Char.ofNat 61]
  | [a, b] =>
    [base64Char (a / 4), base64Char (a % 4 * 16 + b / 16), base64Char (b % 16 * 4),
      Char.ofNat 61]
  | a :: b :: c :: rest =>
    base64Char (a / 4) :: base64Char (a % 4 * 16 + b / 16) ::
      base64Char (b % 16 * 4 + c / 64) :: base64Char (c % 64) :: base64 rest

/-- The function `json.Marshal`, as text; `none` when it returns an error.  A `[]byte`
is written as the JSON string of its base64 text, a nil slice as `null`. -/
def Marshal : GoValue → Option String
  | .nil => some "null"
  | .bool b => some (if b then "true" else "false")
  | .int i => some (toString i)
  | .str s => some (quote s)
  | .ints none => some "null"
  | .ints (some xs) => some ("[" ++ ",".intercalate (xs.map toString) ++ "]")
  | .bytes none => some "null"
  | .bytes (some xs) => some ("\"" ++ String.mk (base64 (xs.map (fun b => b % 256))) ++ "\"")
  | .strs none => some "null"
  | .strs (some xs) => some ("[" ++ ",".intercalate (xs.map quote) ++ "]")
  | .slice _ marshal => marshal
  | .other _ marshal => marshal

end json

/-! ## `request.go` -/

/-- An `io.Reader`, identified by the bytes it delivers. -/
structure Reader where
  data : List Nat
  deriving DecidableEq, Repr

/-- The function `strings.NewReader`. -/
def strings.NewReader (s : String) : Reader := ⟨bytesOf s⟩

/-- A non-nil `context.Context`. -/
structure Context where
  id : Nat
  deriving DecidableEq, Repr

/-- The struct `request`.  `query` and `form` are `none` while nil; `header` is the
address of the header map in the heap, `none` while nil; `body` is `none` while nil. -/
structure request where
  method : String
  endpoint : String
  query : Option url.Values
  form : Option url.Values
  recvWindow : Int
  header : Option Nat
  body : Option Reader
  deriving DecidableEq, Repr

/-- The type `params`, in the order in which a `range` loop visits its entries. -/
abbrev params := List (String × GoValue)

namespace request

/-- The method `addParam`. -/
def addParam (r : request) (key : String) (value : GoValue) : request :=
  let q := match r.query with
    | none => []
    | some q => q
  { r with query := some (url.Values.Add q key (fmt.Sprintf_v value)) }

/-- The method `setParam`.  `reflect.TypeOf(value).Kind()` is a method call on a nil
interface when `value` is nil, which panics. -/
def setParam (r : request) (key : String) (value : GoValue) : Result request :=
  let q := match r.query with
    | none => []
    | some q => q
  match reflect.TypeOf value with
  | none => .panic "invalid memory address or nil pointer dereference"
  | some kind =>
    let value1 :=
      if kind = reflect.Kind.Slice then
        match json.Marshal value with
        | some v => GoValue.str v
        | none => value
      else value
    .ok { r with query := some (url.Values.Set q key (fmt.Sprintf_v value1)) }

/-- The method `setParams`; `m` lists the entries in the order the loop visits them. -/
def setParams (r : request) (m : params) : Result request :=
  match m with
  | [] => .ok r
  | (k, v) :: rest =>
    match r.setParam k v with
    | .ok r1 => setParams r1 rest
    | .error e => .error e
    | .panic msg => .panic msg

/-- The method `setFormParam`. -/
def setFormParam (r : request) (key : String) (value : GoValue) : request :=
  let f := match r.form with
    | none => []
    | some f => f
  { r with form := some (url.Values.Set f key (fmt.Sprintf_v value)) }

/-- The method `setFormParams`; `m` lists the entries in the order the loop visits
them. -/
def setFormParams (r : request) (m : params) : request :=
  match m with
  | [] => r
  | (k, v) :: rest => setFormParams (r.setFormParam k v) rest

/-- The method `validate`: the request after the call and the returned error (`none`
is the nil error). -/
def validate (r : request) : request × Option String :=
  let r1 := match r.query with
    | none => { r with query := some [] }
    | some _ => r
  let r2 := match r1.form with
    | none => { r1 with form := some [] }
    | some _ => r1
  (r2, none)

end request

namespace http

/-- The function `validMethod`: a non-empty string of token bytes. -/
def validMethod (method : String) : Bool :=
  method ≠ "" ∧ (bytesOf method).all isTokenByte

/-- The struct `http.Request`, reduced to the fields `request.go` touches.  `Header`
is the address of the header map, `none` for the nil map. -/
structure Request where
  Method : String
  URL : url.URL
  Header : Option Nat
  Body : Option Reader
  ctx : Context
  deriving DecidableEq, Repr

/-- The context `context.Background()`. -/
def background : Context := ⟨0⟩

/-- The function `http.NewRequest`.  The verdict of `url.Parse` on the URL text is
the parameter `urlParse`; an empty method stands for `GET`; the new request gets a
fresh empty header map. -/
def NewRequest (urlParse : String → Bool) (heap : Heap) (method target : String)
    (body : Option Reader) : Result (Heap × Request) :=
  let method1 := if method = "" then "GET" else method
  if ¬ validMethod method1 then .error "net/http: invalid method"
  else if ¬ urlParse target then .error "parse: invalid URL"
  else
    let (heap1, a) := heap.alloc []
    .ok (heap1, { Method := method1, URL := url.parts target,
                  Header := some a, Body := body, ctx := background })

/-- The header map of a rendered request as the heap holds it (`none`: nil map). -/
def Request.headers (req : Request) (heap : Heap) : Option url.Values :=
  heap.deref req.Header

end http

/-- What a `RequestOption` can reach: the builder and the heap of header maps. -/
structure World where
  heap : Heap
  r : request
  deriving DecidableEq, Repr

/-- The type `RequestOption`, a `func(*request)`. -/
abbrev RequestOption := World → World

/-- The option `WithHeader`. -/
def WithHeader (key value : String) (replace : Bool) : RequestOption := fun w =>
  let (heap1, a) := match w.r.header with
    | none => w.heap.alloc []
    | some a => (w.heap, a)
  let m := heap1.read a
  { heap := heap1.write a (if replace then http.Header.Set m key value
                           else http.Header.Add m key value),
    r := { w.r with header := some a } }

/-- The option `WithHeaders`; `header.Clone()` is nil for a nil header and a fresh
map with the same contents otherwise. -/
def WithHeaders (header : Option http.Header) : RequestOption := fun w =>
  match header with
  | none => { w with r := { w.r with header := none } }
  | some h =>
    let (heap1, a) := w.heap.alloc h
    { heap := heap1, r := { w.r with header := some a } }

/-- The method `toHttpRequest`, run on builder `r` in heap `heap`.  On success it
returns the final heap and builder together with the rendered request. -/
def request.toHttpRequest (r : request) (urlParse : String → Bool) (heap : Heap)
    (baseUrl : String) (ctx : Option Context) (opts : List RequestOption) :
    Result (World × http.Request) :=
  match r.validate with
  | (_, some err) => .error err
  | (r1, none) =>
    let form := r1.form.getD []
    let chosen : Result (Heap × Option Reader) :=
      if 0 < url.Values.len form then
        let body := strings.NewReader (url.Values.Encode form)
        match r1.header with
        | none => .panic "assignment to entry in nil map"
        | some a =>
          .ok (heap.write a (http.Header.Set (heap.read a) "Content-Type"
                "application/x-www-form-urlencoded"), some body)
      else .ok (heap, r1.body)
    match chosen with
    | .panic msg => .panic msg
    | .error err => .error err
    | .ok (heap1, body) =>
      match http.NewRequest urlParse heap1 r1.method (baseUrl ++ "/api/" ++ r1.endpoint) body with
      | .panic msg => .panic msg
      | .error err => .error err
      | .ok (heap2, req) =>
        let req1 := { req with URL := { req.URL with RawQuery := url.Values.Encode (r1.query.getD []) },
                               Header := r1.header }
        let w := opts.foldl (fun w opt => opt w) { heap := heap2, r := r1 }
        match ctx with
        | none => .panic "nil context"
        | some c => .ok (w, { req1 with ctx := c })

/-- A verdict of `url.Parse` for worked examples: it accepts the URL of the
scenario, `http://x/api/tx`, and nothing else. -/
def scenarioParse (target : String) : Bool := target = "http://x/api/tx"

/-- The builder of the scenario before any setter: `POST`, endpoint `tx`, header map
at address `0`. -/
def txRequest : request :=
  { method := "POST", endpoint := "tx", query := none, form := none, recvWindow := 0,
    header := some 0, body := none }

/-! ## Call sequences and stored texts -/

/-- The text `setParam` stores for a value: the JSON text of a slice that
`json.Marshal` accepts, the `%v` text otherwise. -/
def paramText (v : GoValue) : String :=
  if reflect.TypeOf v = some reflect.Kind.Slice then
    match json.Marshal v with
    | some text => text
    | none => fmt.Sprintf_v v
  else fmt.Sprintf_v v

/-- One `WithHeader` call written as data: key, value and the `replace` flag. -/
abbrev HeaderEdit := String × String × Bool

/-- The options `WithHeader(k1, v1, b1)`, ..., `WithHeader(kn, vn, bn)`. -/
def withHeaderOpts (edits : List HeaderEdit) : List RequestOption :=
  edits.map (fun e => WithHeader e.1 e.2.1 e.2.2)

/-- The effect of one `WithHeader` call on the contents of a header map. -/
def applyHeaderEdit (h : http.Header) (e : HeaderEdit) : http.Header :=
  if e.2.2 then http.Header.Set h e.1 e.2.1 else http.Header.Add h e.1 e.2.1

/-- The effect of a list of `WithHeader` calls, in the order given, on the contents of
a header map. -/
def applyHeaderEdits (h : http.Header) (edits : List HeaderEdit) : http.Header :=
  edits.foldl applyHeaderEdit h

/-! ## Lemmas on maps -/

theorem get_filter_ne (m : url.Values) (k k1 : String) :
    url.Values.get (m.filter (fun e => e.1 != k)) k1
      = if k1 = k then none else url.Values.get m k1 := by
  induction m with
  | nil => simp [url.Values.get]
  | cons e rest ih =>
    obtain ⟨ke, vs⟩ := e
    by_cases hke : ke = k
    · have hb : (ke != k) = false := by simp [hke]
      rw [List.filter_cons]
      simp only [hb, Bool.false_eq_true, if_false, ih, url.Values.get]
      by_cases h1 : k1 = k
      · simp [h1]
      · have h2 : ¬ ke = k1 := fun h => h1 (h ▸ hke)
        simp [h1, h2]
    · have hb : (ke != k) = true := by simp [hke]
      rw [List.filter_cons]
      simp only [hb, if_true, url.Values.get, ih]
      by_cases h3 : ke = k1
      · have h1 : ¬ k1 = k := fun h => hke (h3 ▸ h)
        simp [h3, h1]
      · simp [h3]

theorem get_put_same (m : url.Values) (k : String) (vs : List String) :
    url.Values.get (url.Values.put m k vs) k = some vs := by
  simp [url.Values.put, url.Values.get]

theorem get_put_other (m : url.Values) (k k1 : String) (vs : List String) (h : k1 ≠ k) :
    url.Values.get (url.Values.put m k vs) k1 = url.Values.get m k1 := by
  have h2 : ¬ k = k1 := fun e => h e.symm
  simp [url.Values.put, url.Values.get, h2, get_filter_ne, h]

theorem index_put_other (m : url.Values) (k k1 : String) (vs : List String) (h : k1 ≠ k) :
    url.Values.index (url.Values.put m k vs) k1 = url.Values.index m k1 := by
  simp [url.Values.index, get_put_other m k k1 vs h]

theorem perm_insertKey (k : String) (l : List String) : (insertKey k l).Perm (k :: l) := by
  induction l with
  | nil => simp [insertKey]
  | cons x xs ih =>
    by_cases h : strLe k x = true
    · simp [insertKey, h]
    · simp only [insertKey, h]
      exact (List.Perm.cons x ih).trans (List.Perm.swap k x xs)

theorem read_write_same (h : Heap) (a : Nat) (m : http.Header) (ha : a < h.maps.length) :
    (h.write a m).read a = m := by
  simp [Heap.write, Heap.read, List.getD_eq_getElem?_getD, List.getElem?_set, ha]

theorem read_write_other (h : Heap) (a b : Nat) (m : http.Header) (hab : a ≠ b) :
    (h.write a m).read b = h.read b := by
  simp [Heap.write, Heap.read, List.getD_eq_getElem?_getD, List.getElem?_set, hab]

theorem read_alloc_old (h : Heap) (a : Nat) (m : http.Header) (ha : a < h.maps.length) :
    (h.alloc m).1.read a = h.read a := by
  simp [Heap.alloc, Heap.read, List.getD_eq_getElem?_getD, List.getElem?_append_left ha]

theorem read_alloc_new (h : Heap) (m : http.Header) :
    (h.alloc m).1.read (h.alloc m).2 = m := by
  simp [Heap.alloc, Heap.read, List.getD_eq_getElem?_getD]

theorem length_write (h : Heap) (a : Nat) (m : http.Header) :
    (h.write a m).maps.length = h.maps.length := by
  simp [Heap.write]

theorem len_pos_iff (m : url.Values) : 0 < url.Values.len m ↔ m ≠ [] := by
  cases m with
  | nil => simp [url.Values.len, url.Values.keys, dedupKeys]
  | cons e rest => simp [url.Values.len, url.Values.keys, dedupKeys]

/-! ## Rendering -/

/-- C1 (amended): for every request that has a header map and whose form map holds at
least one key, whatever raw body it stores, and every well-formed method and URL,
`toHttpRequest` without options returns a request whose `Content-Type` header is the
single value `application/x-www-form-urlencoded` and whose body reads the encoding of
the form map. -/
theorem toHttpRequest_form_body (r : request) (urlParse : String → Bool) (heap : Heap)
    (baseUrl : String) (ctx : Context) (f : url.Values) (a : Nat)
    (hform : r.form = some f) (hlen : 0 < url.Values.len f)
    (hhdr : r.header = some a) (ha : a < heap.maps.length)
    (hm : http.validMethod r.method = true)
    (hu : urlParse (baseUrl ++ "/api/" ++ r.endpoint) = true) :
    ∃ w req, r.toHttpRequest urlParse heap baseUrl (some ctx) [] = Result.ok (w, req) ∧
      (∃ h, req.headers w.heap = some h ∧
        url.Values.get h "Content-Type" = some ["application/x-www-form-urlencoded"]) ∧
      req.Body = some (strings.NewReader (url.Values.Encode f)) := by
  have hne : r.method ≠ "" := by
    intro h
    rw [h] at hm
    exact absurd hm (by decide)
  have hct : textproto.CanonicalMIMEHeaderKey "Content-Type" = "Content-Type" := by decide
  have hrd : url.Values.get
      (((heap.write a (url.Values.put (heap.read a) "Content-Type"
        ["application/x-www-form-urlencoded"])).alloc []).1.read a) "Content-Type"
      = some ["application/x-www-form-urlencoded"] := by
    rw [read_alloc_old _ _ _ (by rw [length_write]; exact ha), read_write_same _ _ _ ha,
      get_put_same]
  cases hq : r.query <;>
    simp only [request.toHttpRequest, request.validate, hq, hform, hlen, hhdr, hm, hu, hne,
      http.NewRequest, http.Request.headers, Heap.deref, http.Header.Set, url.Values.Set, hct,
      Option.getD_some, Option.getD_none, if_true, if_false, not_true_eq_false,
      Bool.not_eq_true, Bool.true_eq_false, ite_false] <;>
    exact ⟨_, _, rfl, ⟨_, rfl, hrd⟩, rfl⟩

/-- C1 at a concrete input: a form parameter, a raw body and an earlier `Content-Type`. -/
theorem toHttpRequest_form_body_witness :
    ∃ w req, ({ txRequest with form := some [("a", ["1"])], body := some ⟨[104, 105]⟩ } :
        request).toHttpRequest scenarioParse ⟨[[("Content-Type", ["text/plain"])]]⟩ "http://x"
        (some ⟨1⟩) [] = Result.ok (w, req) ∧
      (∃ h, req.headers w.heap = some h ∧
        url.Values.get h "Content-Type" = some ["application/x-www-form-urlencoded"]) ∧
      req.Body = some (strings.NewReader (url.Values.Encode [("a", ["1"])])) :=
  toHttpRequest_form_body _ scenarioParse ⟨[[("Content-Type", ["text/plain"])]]⟩ "http://x" ⟨1⟩
    [("a", ["1"])] 0 rfl (by decide) rfl (by decide) (by decide) (by decide)

/-- C1 fails as stated: with a form parameter set, a request whose method is malformed
gets a construction error, and a request whose header map is nil makes `toHttpRequest`
panic; neither run returns a request. -/
theorem toHttpRequest_form_body_counterexample :
    ({ txRequest with method := "PO ST", form := some [("a", ["1"])] } :
        request).toHttpRequest scenarioParse ⟨[[]]⟩ "http://x" (some ⟨1⟩) []
      = Result.error "net/http: invalid method" ∧
    ({ txRequest with header := none, form := some [("a", ["1"])], body := some ⟨[104, 105]⟩ } :
        request).toHttpRequest scenarioParse ⟨[[]]⟩ "http://x" (some ⟨1⟩) []
      = Result.panic "assignment to entry in nil map" := by
  constructor <;> decide

/-- C2 (amended): for every request whose form map is nil or empty (the query map may
be nil as well), every well-formed method and URL and every list of options,
`toHttpRequest` returns a request whose body is the stored raw body and whose header
reference is the builder's; without options the builder keeps its header reference
and no header map of the heap is changed. -/
theorem toHttpRequest_raw_body (r : request) (urlParse : String → Bool) (heap : Heap)
    (baseUrl : String) (ctx : Context) (opts : List RequestOption)
    (hform : r.form = none ∨ r.form = some [])
    (hm : http.validMethod r.method = true)
    (hu : urlParse (baseUrl ++ "/api/" ++ r.endpoint) = true) :
    (∃ w req, r.toHttpRequest urlParse heap baseUrl (some ctx) opts = Result.ok (w, req) ∧
      req.Body = r.body ∧ req.Header = r.header) ∧
    (∃ w req, r.toHttpRequest urlParse heap baseUrl (some ctx) [] = Result.ok (w, req) ∧
      req.Body = r.body ∧ req.Header = r.header ∧ w.r.header = r.header ∧
      (∀ b, b < heap.maps.length → w.heap.read b = heap.read b) ∧
      (∀ a, r.header = some a → a < heap.maps.length →
        req.headers w.heap = some (heap.read a)) ∧
      (r.header = none → req.headers w.heap = none)) := by
  have hne : r.method ≠ "" := by
    intro h
    rw [h] at hm
    exact absurd hm (by decide)
  have hlen : url.Values.len ([] : url.Values) = 0 := rfl
  constructor
  · rcases hform with hf | hf <;> cases hq : r.query <;>
      simp only [request.toHttpRequest, request.validate, hq, hf, hm, hu, hne, hlen,
        http.NewRequest, Option.getD_some, Option.getD_none, if_true, if_false,
        not_true_eq_false, Bool.not_eq_true, Bool.true_eq_false, ite_false, lt_self_iff_false] <;>
      exact ⟨_, _, rfl, rfl, rfl⟩
  · rcases hform with hf | hf <;> cases hq : r.query <;>
      simp only [request.toHttpRequest, request.validate, hq, hf, hm, hu, hne, hlen,
        http.NewRequest, Option.getD_some, Option.getD_none, if_true, if_false,
        not_true_eq_false, Bool.not_eq_true, Bool.true_eq_false, ite_false, lt_self_iff_false,
        List.foldl_nil] <;>
      refine ⟨_, _, rfl, rfl, rfl, rfl, fun b hb => read_alloc_old _ _ _ hb, ?_, ?_⟩ <;>
      intro a <;>
      simp_all [http.Request.headers, Heap.deref, read_alloc_old]

/-- C2 at a concrete input: nil query and form maps, a raw body, one option. -/
theorem toHttpRequest_raw_body_witness :
    (∃ w req, ({ txRequest with body := some ⟨[104, 105]⟩ } : request).toHttpRequest scenarioParse
        ⟨[[]]⟩ "http://x" (some ⟨1⟩) [WithHeader "A" "1" true] = Result.ok (w, req) ∧
      req.Body = some ⟨[104, 105]⟩ ∧ req.Header = some 0) ∧
    (∃ w req, ({ txRequest with body := some ⟨[104, 105]⟩ } : request).toHttpRequest scenarioParse
        ⟨[[]]⟩ "http://x" (some ⟨1⟩) [] = Result.ok (w, req) ∧
      req.Body = some ⟨[104, 105]⟩ ∧ req.Header = some 0 ∧ w.r.header = some 0 ∧
      (∀ b, b < 1 → w.heap.read b = (⟨[[]]⟩ : Heap).read b) ∧
      (∀ a, some 0 = some a → a < 1 → req.headers w.heap = some ((⟨[[]]⟩ : Heap).read a)) ∧
      ((some 0 : Option Nat) = none → req.headers w.heap = none)) :=
  toHttpRequest_raw_body { txRequest with body := some ⟨[104, 105]⟩ } scenarioParse ⟨[[]]⟩
    "http://x" ⟨1⟩ [WithHeader "A" "1" true] (Or.inl rfl) (by decide) (by decide)

/-- C2 fails as stated: a request without form parameters whose method is malformed
gets a construction error instead of a request. -/
theorem toHttpRequest_raw_body_counterexample :
    ({ txRequest with method := "BAD METHOD", body := some ⟨[104, 105]⟩ } :
        request).toHttpRequest scenarioParse ⟨[[]]⟩ "http://x" (some ⟨1⟩) []
      = Result.error "net/http: invalid method" := by
  decide

/-- C6 (the code at the failing input): the builder's header map holds `A: 1` and the
option is `WithHeaders` of the map `B: 2`.  The returned request still carries `A: 1`;
only the builder's header reference moves to a fresh copy of `B: 2`. -/
theorem withHeaders_not_on_rendered_request :
    ∃ w req, txRequest.toHttpRequest scenarioParse ⟨[[("A", ["1"])]]⟩ "http://x" (some ⟨1⟩)
        [WithHeaders (some [("B", ["2"])])] = Result.ok (w, req) ∧
      req.headers w.heap = some [("A", ["1"])] ∧
      w.heap.deref w.r.header = some [("B", ["2"])] ∧
      req.headers w.heap ≠ some [("B", ["2"])] :=
  ⟨_, _, rfl, by decide, by decide, by decide⟩

/-- C8 (the code at the failing input): a builder made with method and endpoint only
(nil header map) on which one form parameter is set; method and URL are well formed,
yet `toHttpRequest` panics on the write into the nil header map. -/
theorem toHttpRequest_nil_header_panics :
    http.validMethod "POST" = true ∧ scenarioParse ("http://x" ++ "/api/" ++ "tx") = true ∧
    (({ method := "POST", endpoint := "tx", query := none, form := none, recvWindow := 0,
        header := none, body := none } : request).setFormParam "template_id"
          (GoValue.int 1)).toHttpRequest scenarioParse ⟨[]⟩ "http://x" (some ⟨1⟩) []
      = Result.panic "assignment to entry in nil map" := by
  refine ⟨by decide, by decide, by decide⟩

/-- C9 (the code at the failing input): `setParam` with the nil value panics, while
`addParam` and `setFormParam` store the text `<nil>` for the same value. -/
theorem setParam_nil_panics :
    txRequest.setParam "k" GoValue.nil
      = Result.panic "invalid memory address or nil pointer dereference" ∧
    (txRequest.addParam "k" GoValue.nil).query = some [("k", ["<nil>"])] ∧
    (txRequest.setFormParam "k" GoValue.nil).form = some [("k", ["<nil>"])] := by
  refine ⟨by decide, by decide, by decide⟩

/-! ## Key order of `Encode` -/

theorem bytesLe_refl (a : List Nat) : bytesLe a a = true := by
  induction a with
  | nil => rfl
  | cons x xs ih => simp [bytesLe, ih]

theorem bytesLe_total (a b : List Nat) : bytesLe a b = true ∨ bytesLe b a = true := by
  induction a generalizing b with
  | nil => left; rfl
  | cons x xs ih =>
    cases b with
    | nil => right; rfl
    | cons y ys =>
      rcases Nat.lt_trichotomy x y with h | h | h
      · left; simp [bytesLe, h]
      · subst h
        rcases ih ys with h1 | h1
        · left; simp [bytesLe, h1]
        · right; simp [bytesLe, h1]
      · right; simp [bytesLe, h]

theorem bytesLe_trans (a b c : List Nat) (hab : bytesLe a b = true)
    (hbc : bytesLe b c = true) : bytesLe a c = true := by
  induction a generalizing b c with
  | nil => rfl
  | cons x xs ih =>
    cases b with
    | nil => simp [bytesLe] at hab
    | cons y ys =>
      cases c with
      | nil => simp [bytesLe] at hbc
      | cons z zs =>
        simp only [bytesLe] at hab hbc ⊢
        by_cases hxy : x < y
        · by_cases hyz : y < z
          · simp [Nat.lt_trans hxy hyz]
          · by_cases hzy : z < y
            · simp [hyz, hzy] at hbc
            · have hyz2 : y = z := by omega
              subst hyz2
              simp [hxy]
        · by_cases hyx : y < x
          · simp [hxy, hyx] at hab
          · have hxy2 : x = y := by omega
            subst hxy2
            simp only [hxy, if_false] at hab
            by_cases hxz : x < z
            · simp [hxz]
            · by_cases hzx : z < x
              · simp [hxz, hzx] at hbc
              · simp only [hxz, hzx, if_false] at hbc ⊢
                exact ih ys zs hab hbc

theorem sorted_insertKey (k : String) (l : List String)
    (hl : l.Pairwise (fun a b => strLe a b = true)) :
    (insertKey k l).Pairwise (fun a b => strLe a b = true) := by
  induction l with
  | nil => simp [insertKey]
  | cons x xs ih =>
    rw [List.pairwise_cons] at hl
    by_cases h : strLe k x = true
    · simp only [insertKey, h, if_true, List.pairwise_cons]
      refine ⟨?_, hl.1, hl.2⟩
      intro b hb
      rcases List.mem_cons.mp hb with hbx | hbx
      · rw [hbx]; exact h
      · exact bytesLe_trans _ _ _ h (hl.1 b hbx)
    · simp only [insertKey, h, Bool.false_eq_true, if_false, List.pairwise_cons]
      refine ⟨?_, ih hl.2⟩
      intro b hb
      rcases List.mem_cons.mp ((perm_insertKey k xs).mem_iff.mp hb) with hbk | hbx
      · rw [hbk]
        rcases bytesLe_total (bytesOf k) (bytesOf x) with h1 | h1
        · exact absurd h1 h
        · exact h1
      · exact hl.1 b hbx

theorem sorted_sortKeys (l : List String) :
    (sortKeys l).Pairwise (fun a b => strLe a b = true) := by
  induction l with
  | nil => simp [sortKeys]
  | cons x xs ih => exact sorted_insertKey x _ ih

theorem sorted_pairs (f : String → List String) (l : List String)
    (hl : l.Pairwise (fun a b => strLe a b = true)) :
    (l.flatMap (fun k => (f k).map (fun v => (k, v)))).Pairwise
      (fun p q => strLe p.1 q.1 = true) := by
  induction l with
  | nil => simp
  | cons x xs ih =>
    rw [List.pairwise_cons] at hl
    rw [List.flatMap_cons, List.pairwise_append]
    refine ⟨?_, ih hl.2, ?_⟩
    · rw [List.pairwise_map]
      exact List.pairwise_of_forall (fun _ _ => bytesLe_refl _)
    · intro p hp q hq
      obtain ⟨v, _, rfl⟩ := List.mem_map.mp hp
      obtain ⟨k, hk, hq2⟩ := List.mem_flatMap.mp hq
      obtain ⟨v2, _, rfl⟩ := List.mem_map.mp hq2
      exact hl.1 k hk

/-- The pairs written by `Encode` come in ascending order of key. -/
theorem encodePairs_sorted (m : url.Values) :
    (url.Values.encodePairs m).Pairwise (fun p q => strLe p.1 q.1 = true) :=
  sorted_pairs _ _ (sorted_sortKeys _)

/-! ## The outcome of a successful render, in closed form -/

theorem method_ne_empty (method : String) (hm : http.validMethod method = true) :
    method ≠ "" := by
  intro h
  rw [h] at hm
  exact absurd hm (by decide)

/-- Rendering a request with form parameters and a header map. -/
theorem toHttpRequest_with_form (r : request) (urlParse : String → Bool) (heap : Heap)
    (baseUrl : String) (ctx : Context) (opts : List RequestOption) (f : url.Values) (a : Nat)
    (hform : r.form = some f) (hlen : 0 < url.Values.len f) (hhdr : r.header = some a)
    (hm : http.validMethod r.method = true)
    (hu : urlParse (baseUrl ++ "/api/" ++ r.endpoint) = true) :
    r.toHttpRequest urlParse heap baseUrl (some ctx) opts
      = Result.ok (opts.foldl (fun w opt => opt w)
          { heap := ((heap.write a (http.Header.Set (heap.read a) "Content-Type"
                      "application/x-www-form-urlencoded")).alloc []).1,
            r := r.validate.1 },
          { Method := r.method,
            URL := { url.parts (baseUrl ++ "/api/" ++ r.endpoint) with
                     RawQuery := url.Values.Encode (r.query.getD []) },
            Header := some a,
            Body := some (strings.NewReader (url.Values.Encode f)),
            ctx := ctx }) := by
  have hne := method_ne_empty r.method hm
  cases hq : r.query <;>
    simp only [request.toHttpRequest, request.validate, hq, hform, hlen, hhdr, hm, hu, hne,
      http.NewRequest, Option.getD_some, Option.getD_none, if_true, if_false,
      not_true_eq_false, Bool.not_eq_true, Bool.true_eq_false, ite_false]

/-- Rendering a request without form parameters. -/
theorem toHttpRequest_without_form (r : request) (urlParse : String → Bool) (heap : Heap)
    (baseUrl : String) (ctx : Context) (opts : List RequestOption)
    (hform : r.form = none ∨ r.form = some [])
    (hm : http.validMethod r.method = true)
    (hu : urlParse (baseUrl ++ "/api/" ++ r.endpoint) = true) :
    r.toHttpRequest urlParse heap baseUrl (some ctx) opts
      = Result.ok (opts.foldl (fun w opt => opt w)
          { heap := (heap.alloc []).1, r := r.validate.1 },
          { Method := r.method,
            URL := { url.parts (baseUrl ++ "/api/" ++ r.endpoint) with
                     RawQuery := url.Values.Encode (r.query.getD []) },
            Header := r.header,
            Body := r.body,
            ctx := ctx }) := by
  have hne := method_ne_empty r.method hm
  have hlen : url.Values.len ([] : url.Values) = 0 := rfl
  rcases hform with hf | hf <;> cases hq : r.query <;>
    simp only [request.toHttpRequest, request.validate, hq, hf, hm, hu, hne, hlen,
      http.NewRequest, Option.getD_some, Option.getD_none, if_true, if_false,
      not_true_eq_false, Bool.not_eq_true, Bool.true_eq_false, ite_false, lt_self_iff_false]

/-- C7 (amended): the form-encoded body lists the form parameters in ascending byte
order of their keys, not in the order in which they were set.  For the `POST` request
on endpoint `tx` with a header map, on which `template_id = 1` and then
`subscriber_ids = [1,2]` were set, rendering against `http://x` yields method `POST`,
URL `http://x/api/tx`, the form `Content-Type` and the body
`subscriber_ids=%5B1%2C2%5D&template_id=1`. -/
theorem form_body_sorted_by_key (urlParse : String → Bool) (heap : Heap) (a : Nat)
    (ctx : Context) (ha : a < heap.maps.length) (hu : urlParse "http://x/api/tx" = true) :
    (∀ f : url.Values,
      (url.Values.encodePairs f).Pairwise (fun p q => strLe p.1 q.1 = true)) ∧
    ∃ w req,
      ((({ txRequest with header := some a } : request).setFormParam "template_id"
          (GoValue.str "1")).setFormParam "subscriber_ids" (GoValue.str "[1,2]")).toHttpRequest
          urlParse heap "http://x" (some ctx) [] = Result.ok (w, req) ∧
      req.Method = "POST" ∧ req.URL.SchemeHostPath = "http://x/api/tx" ∧
      req.URL.String = "http://x/api/tx" ∧
      (∃ h, req.headers w.heap = some h ∧
        url.Values.get h "Content-Type" = some ["application/x-www-form-urlencoded"]) ∧
      req.Body = some (strings.NewReader "subscriber_ids=%5B1%2C2%5D&template_id=1") := by
  refine ⟨encodePairs_sorted, ?_⟩
  have hr : ((({ txRequest with header := some a } : request).setFormParam "template_id"
          (GoValue.str "1")).setFormParam "subscriber_ids" (GoValue.str "[1,2]"))
      = { method := "POST", endpoint := "tx", query := none,
          form := some [("subscriber_ids", ["[1,2]"]), ("template_id", ["1"])],
          recvWindow := 0, header := some a, body := none } := by
    rfl
  have hct : textproto.CanonicalMIMEHeaderKey "Content-Type" = "Content-Type" := by decide
  rw [hr, toHttpRequest_with_form _ urlParse heap "http://x" ctx []
    [("subscriber_ids", ["[1,2]"]), ("template_id", ["1"])] a rfl (by decide) rfl
    (show http.validMethod "POST" = true by decide)
    (show urlParse ("http://x" ++ "/api/" ++ "tx") = true from hu)]
  have hbody : url.Values.Encode [("subscriber_ids", ["[1,2]"]), ("template_id", ["1"])]
      = "subscriber_ids=%5B1%2C2%5D&template_id=1" := by decide
  refine ⟨_, _, rfl, rfl, ?_, ?_, ⟨_, rfl, ?_⟩, ?_⟩
  · show url.beforeQuery ("http://x" ++ "/api/" ++ "tx") = "http://x/api/tx"
    decide
  · show url.URL.String { url.parts ("http://x" ++ "/api/" ++ "tx") with
      RawQuery := url.Values.Encode ((none : Option url.Values).getD []) } = "http://x/api/tx"
    decide
  · simp only [List.foldl_nil]
    rw [read_alloc_old _ _ _ (by rw [length_write]; exact ha), read_write_same _ _ _ ha,
      http.Header.Set, hct, url.Values.Set, get_put_same]
  · show some (strings.NewReader (url.Values.Encode
      [("subscriber_ids", ["[1,2]"]), ("template_id", ["1"])])) = _
    rw [hbody]

/-- C7 at a concrete input: the header map is empty, at address `0`. -/
theorem form_body_sorted_by_key_witness :
    (∀ f : url.Values,
      (url.Values.encodePairs f).Pairwise (fun p q => strLe p.1 q.1 = true)) ∧
    ∃ w req,
      ((({ txRequest with header := some 0 } : request).setFormParam "template_id"
          (GoValue.str "1")).setFormParam "subscriber_ids" (GoValue.str "[1,2]")).toHttpRequest
          scenarioParse ⟨[[]]⟩ "http://x" (some ⟨1⟩) [] = Result.ok (w, req) ∧
      req.Method = "POST" ∧ req.URL.SchemeHostPath = "http://x/api/tx" ∧
      req.URL.String = "http://x/api/tx" ∧
      (∃ h, req.headers w.heap = some h ∧
        url.Values.get h "Content-Type" = some ["application/x-www-form-urlencoded"]) ∧
      req.Body = some (strings.NewReader "subscriber_ids=%5B1%2C2%5D&template_id=1") :=
  form_body_sorted_by_key scenarioParse ⟨[[]]⟩ 0 ⟨1⟩ (by decide) (by decide)

/-- C7 fails as stated: in the scenario the rendered body is
`subscriber_ids=%5B1%2C2%5D&template_id=1`, which is not the body in set order,
`template_id=1&subscriber_ids=%5B1%2C2%5D`. -/
theorem form_body_set_order_counterexample :
    ∃ w req,
      ((txRequest.setFormParam "template_id" (GoValue.str "1")).setFormParam "subscriber_ids"
          (GoValue.str "[1,2]")).toHttpRequest scenarioParse ⟨[[]]⟩ "http://x" (some ⟨1⟩) []
        = Result.ok (w, req) ∧
      req.Body = some (strings.NewReader "subscriber_ids=%5B1%2C2%5D&template_id=1") ∧
      req.Body ≠ some (strings.NewReader "template_id=1&subscriber_ids=%5B1%2C2%5D") :=
  ⟨_, _, rfl, by decide, by decide⟩

/-! ## `setParams` and `setFormParams` -/

theorem setParam_ok (r : request) (k : String) (v : GoValue) (hv : v ≠ GoValue.nil) :
    r.setParam k v
      = Result.ok { r with query := some (url.Values.Set (r.query.getD []) k (paramText v)) } := by
  cases v with
  | nil => exact absurd rfl hv
  | bool b => cases hq : r.query <;> simp [request.setParam, reflect.TypeOf, paramText, hq]
  | int i => cases hq : r.query <;> simp [request.setParam, reflect.TypeOf, paramText, hq]
  | str t => cases hq : r.query <;> simp [request.setParam, reflect.TypeOf, paramText, hq]
  | other shown marshal =>
    cases hq : r.query <;> simp [request.setParam, reflect.TypeOf, paramText, hq]
  | ints xs =>
    cases hq : r.query <;> cases xs <;>
      simp [request.setParam, reflect.TypeOf, paramText, hq, json.Marshal, fmt.Sprintf_v]
  | strs xs =>
    cases hq : r.query <;> cases xs <;>
      simp [request.setParam, reflect.TypeOf, paramText, hq, json.Marshal, fmt.Sprintf_v]
  | bytes xs =>
    cases hq : r.query <;> cases xs <;>
      simp [request.setParam, reflect.TypeOf, paramText, hq, json.Marshal, fmt.Sprintf_v]
  | slice shown marshal =>
    cases hq : r.query <;> cases marshal <;>
      simp [request.setParam, reflect.TypeOf, paramText, hq, json.Marshal, fmt.Sprintf_v]

theorem setFormParam_eq (r : request) (k : String) (v : GoValue) :
    r.setFormParam k v
      = { r with form := some (url.Values.Set (r.form.getD []) k (fmt.Sprintf_v v)) } := by
  cases hf : r.form <;> simp [request.setFormParam, hf]

/-- With keys that are pairwise distinct and no nil value, `setParams` returns
normally; each key of `m` then holds the one text `setParam` stores for its value, every
other key holds what it held before, and no other field of the request changes. -/
theorem setParams_ok (m : params) (r : request)
    (hkeys : (m.map Prod.fst).Nodup) (hnil : ∀ e ∈ m, e.2 ≠ GoValue.nil) :
    ∃ q, r.setParams m = Result.ok { r with query := q } ∧
      (∀ k v, (k, v) ∈ m → url.Values.get (q.getD []) k = some [paramText v]) ∧
      (∀ k, k ∉ m.map Prod.fst →
        url.Values.get (q.getD []) k = url.Values.get (r.query.getD []) k) := by
  induction m generalizing r with
  | nil => exact ⟨r.query, rfl, by simp, by simp⟩
  | cons e rest ih =>
    obtain ⟨k0, v0⟩ := e
    rw [List.map_cons, List.nodup_cons] at hkeys
    have hv0 : v0 ≠ GoValue.nil := hnil (k0, v0) (List.mem_cons_self _ _)
    obtain ⟨q, hq, hin, hout⟩ :=
      ih { r with query := some (url.Values.Set (r.query.getD []) k0 (paramText v0)) } hkeys.2
        (fun e he => hnil e (List.mem_cons_of_mem _ he))
    refine ⟨q, ?_, ?_, ?_⟩
    · simp only [request.setParams, setParam_ok r k0 v0 hv0]
      exact hq
    · intro k v hkv
      rcases List.mem_cons.mp hkv with h | h
      · obtain ⟨rfl, rfl⟩ := Prod.mk.inj h
        rw [hout k hkeys.1]
        simp [url.Values.Set, get_put_same]
      · exact hin k v h
    · intro k hk
      rw [List.map_cons, List.mem_cons, not_or] at hk
      rw [hout k hk.2]
      simp [url.Values.Set, get_put_other _ _ _ _ hk.1]

/-- The method `setFormParams` with pairwise distinct keys: each key of `m` ends with
the one `%v` text of its value, every other key holds what it held before, and no
other field of the request changes. -/
theorem setFormParams_ok (m : params) (r : request) (hkeys : (m.map Prod.fst).Nodup) :
    ∃ f, r.setFormParams m = { r with form := f } ∧
      (∀ k v, (k, v) ∈ m → url.Values.get (f.getD []) k = some [fmt.Sprintf_v v]) ∧
      (∀ k, k ∉ m.map Prod.fst →
        url.Values.get (f.getD []) k = url.Values.get (r.form.getD []) k) := by
  induction m generalizing r with
  | nil => exact ⟨r.form, rfl, by simp, by simp⟩
  | cons e rest ih =>
    obtain ⟨k0, v0⟩ := e
    rw [List.map_cons, List.nodup_cons] at hkeys
    obtain ⟨f, hf, hin, hout⟩ :=
      ih { r with form := some (url.Values.Set (r.form.getD []) k0 (fmt.Sprintf_v v0)) } hkeys.2
    refine ⟨f, ?_, ?_, ?_⟩
    · simp only [request.setFormParams, setFormParam_eq r k0 v0]
      exact hf
    · intro k v hkv
      rcases List.mem_cons.mp hkv with h | h
      · obtain ⟨rfl, rfl⟩ := Prod.mk.inj h
        rw [hout k hkeys.1]
        simp [url.Values.Set, get_put_same]
      · exact hin k v h
    · intro k hk
      rw [List.map_cons, List.mem_cons, not_or] at hk
      rw [hout k hk.2]
      simp [url.Values.Set, get_put_other _ _ _ _ hk.1]

/-- For a parameter map without nil values the outcome of `setParams` does not depend
on the order in which the entries are visited: both orders return normally with query
maps that agree on every key, each key of the map holding the one text `setParam`
stores for its value and every other key its earlier values. -/
theorem setParams_order_independent (r : request) (m1 m2 : params) (hperm : m1.Perm m2)
    (hkeys : (m1.map Prod.fst).Nodup) (hnil : ∀ e ∈ m1, e.2 ≠ GoValue.nil) :
    ∃ q1 q2, r.setParams m1 = Result.ok { r with query := q1 } ∧
      r.setParams m2 = Result.ok { r with query := q2 } ∧
      (∀ k, url.Values.get (q1.getD []) k = url.Values.get (q2.getD []) k) ∧
      (∀ k v, (k, v) ∈ m1 → url.Values.get (q1.getD []) k = some [paramText v]) ∧
      (∀ k, k ∉ m1.map Prod.fst →
        url.Values.get (q1.getD []) k = url.Values.get (r.query.getD []) k) := by
  have hkeys2 : (m2.map Prod.fst).Nodup := (hperm.map Prod.fst).nodup_iff.mp hkeys
  have hnil2 : ∀ e ∈ m2, e.2 ≠ GoValue.nil := fun e he => hnil e (hperm.mem_iff.mpr he)
  obtain ⟨q1, h1, hin1, hout1⟩ := setParams_ok m1 r hkeys hnil
  obtain ⟨q2, h2, hin2, hout2⟩ := setParams_ok m2 r hkeys2 hnil2
  refine ⟨q1, q2, h1, h2, ?_, hin1, hout1⟩
  intro k
  by_cases hk : k ∈ m1.map Prod.fst
  · obtain ⟨e, he, hek⟩ := List.mem_map.mp hk
    obtain ⟨k0, v0⟩ := e
    simp only at hek
    subst hek
    rw [hin1 k0 v0 he, hin2 k0 v0 (hperm.mem_iff.mp he)]
  · have hk2 : k ∉ m2.map Prod.fst := fun h => hk ((hperm.map Prod.fst).mem_iff.mpr h)
    rw [hout1 k hk, hout2 k hk2]

/-- The outcome of `setFormParams` does not depend on the order in which the entries
are visited, for every parameter map. -/
theorem setFormParams_order_independent (r : request) (m1 m2 : params) (hperm : m1.Perm m2)
    (hkeys : (m1.map Prod.fst).Nodup) :
    ∃ f1 f2, r.setFormParams m1 = { r with form := f1 } ∧
      r.setFormParams m2 = { r with form := f2 } ∧
      (∀ k, url.Values.get (f1.getD []) k = url.Values.get (f2.getD []) k) ∧
      (∀ k v, (k, v) ∈ m1 → url.Values.get (f1.getD []) k = some [fmt.Sprintf_v v]) ∧
      (∀ k, k ∉ m1.map Prod.fst →
        url.Values.get (f1.getD []) k = url.Values.get (r.form.getD []) k) := by
  have hkeys2 : (m2.map Prod.fst).Nodup := (hperm.map Prod.fst).nodup_iff.mp hkeys
  obtain ⟨f1, h1, hin1, hout1⟩ := setFormParams_ok m1 r hkeys
  obtain ⟨f2, h2, hin2, hout2⟩ := setFormParams_ok m2 r hkeys2
  refine ⟨f1, f2, h1, h2, ?_, hin1, hout1⟩
  intro k
  by_cases hk : k ∈ m1.map Prod.fst
  · obtain ⟨e, he, hek⟩ := List.mem_map.mp hk
    obtain ⟨k0, v0⟩ := e
    simp only at hek
    subst hek
    rw [hin1 k0 v0 he, hin2 k0 v0 (hperm.mem_iff.mp he)]
  · have hk2 : k ∉ m2.map Prod.fst := fun h => hk ((hperm.map Prod.fst).mem_iff.mpr h)
    rw [hout1 k hk, hout2 k hk2]

/-- C10 (the code at the failing input): for the map with `a = 1` and `b = nil`,
`setParams` panics in both visiting orders and no key ends with a value; visited
`a` first, `a` is stored before the panic, visited `b` first, nothing is.
`setFormParams` completes on the same map in both orders. -/
theorem setParams_nil_value_panics :
    txRequest.setParams [("a", GoValue.int 1), ("b", GoValue.nil)]
      = Result.panic "invalid memory address or nil pointer dereference" ∧
    txRequest.setParams [("b", GoValue.nil), ("a", GoValue.int 1)]
      = Result.panic "invalid memory address or nil pointer dereference" ∧
    txRequest.setParam "a" (GoValue.int 1)
      = Result.ok { txRequest with query := some [("a", ["1"])] } ∧
    ({ txRequest with query := some [("a", ["1"])] } : request).setParam "b" GoValue.nil
      = Result.panic "invalid memory address or nil pointer dereference" ∧
    (txRequest.setFormParams [("a", GoValue.int 1), ("b", GoValue.nil)]).form
      = some [("b", ["<nil>"]), ("a", ["1"])] ∧
    (txRequest.setFormParams [("b", GoValue.nil), ("a", GoValue.int 1)]).form
      = some [("a", ["1"]), ("b", ["<nil>"])] := by
  refine ⟨by decide, by decide, by decide, by decide, by decide, by decide⟩

/-- Every value other than nil is accepted by the three setters: `setParam` returns
normally and leaves one text under the key, `addParam` leaves the `%v` text as the
last value of the key, `setFormParam` leaves the `%v` text as the one value. -/
theorem setters_store_text (r : request) (k : String) (v : GoValue) :
    (v ≠ GoValue.nil → ∃ r1 q, r.setParam k v = Result.ok r1 ∧ r1.query = some q ∧
      url.Values.get q k = some [paramText v]) ∧
    (∃ q, (r.addParam k v).query = some q ∧
      url.Values.get q k = some (url.Values.index (r.query.getD []) k ++ [fmt.Sprintf_v v])) ∧
    (∃ f, (r.setFormParam k v).form = some f ∧
      url.Values.get f k = some [fmt.Sprintf_v v]) := by
  refine ⟨fun hv => ⟨_, _, setParam_ok r k v hv, rfl, ?_⟩, ?_, ?_⟩
  · simp [url.Values.Set, get_put_same]
  · refine ⟨url.Values.Add (r.query.getD []) k (fmt.Sprintf_v v), ?_, ?_⟩
    · cases hq : r.query <;> simp [request.addParam, hq]
    · simp [url.Values.Add, get_put_same]
  · rw [setFormParam_eq]
    exact ⟨_, rfl, by simp [url.Values.Set, get_put_same]⟩


/-! ## `setFormParam`, `validate` and the frame of the setters -/

/-- C11: for every request, key and value, `setFormParam(k, v)` leaves exactly the one
value `fmt.Sprintf("%v", v)` under `k` in the form map, slices included: `[1,2]` is
stored as `[1 2]`, while `setParam` stores the JSON text `[1,2]` for it. -/
theorem setFormParam_default_text (r : request) (k : String) (v : GoValue) :
    (∃ f, (r.setFormParam k v).form = some f ∧
      url.Values.get f k = some [fmt.Sprintf_v v]) ∧
    (∃ f, (r.setFormParam k (GoValue.ints (some [1, 2]))).form = some f ∧
      url.Values.get f k = some ["[1 2]"]) ∧
    (∃ r1 q, r.setParam k (GoValue.ints (some [1, 2])) = Result.ok r1 ∧ r1.query = some q ∧
      url.Values.get q k = some ["[1,2]"]) := by
  have h12 : fmt.Sprintf_v (GoValue.ints (some [1, 2])) = "[1 2]" := by decide
  have hj12 : paramText (GoValue.ints (some [1, 2])) = "[1,2]" := by decide
  refine ⟨?_, ?_, ?_⟩
  · rw [setFormParam_eq]
    exact ⟨_, rfl, by simp [url.Values.Set, get_put_same]⟩
  · rw [setFormParam_eq, h12]
    exact ⟨_, rfl, by simp [url.Values.Set, get_put_same]⟩
  · rw [setParam_ok r k _ (by simp), hj12]
    exact ⟨_, _, rfl, rfl, by simp [url.Values.Set, get_put_same]⟩

/-- C12: for every request, `validate` returns the nil error; afterwards the query and
form maps are non-nil and hold what they held before (the empty map for a nil map),
method, endpoint, receive window, header and body are unchanged, and a second call
changes nothing. -/
theorem validate_nil_guards (r : request) :
    r.validate.2 = none ∧
    (r.validate.1).query = some (r.query.getD []) ∧
    (r.validate.1).form = some (r.form.getD []) ∧
    (r.validate.1).method = r.method ∧ (r.validate.1).endpoint = r.endpoint ∧
    (r.validate.1).recvWindow = r.recvWindow ∧
    (r.validate.1).header = r.header ∧ (r.validate.1).body = r.body ∧
    (r.validate.1).validate = (r.validate.1, none) := by
  cases hq : r.query <;> cases hf : r.form <;> simp [request.validate, hq, hf]

/-- C18: `addParam` and `setParam` (whenever it returns) leave form map, header, body,
method and endpoint as they were and leave every query key other than `k` with the
values it had; `setFormParam` does the same with the roles of query and form exchanged.
`setParam` returns for every value other than nil. -/
theorem setters_frame (r : request) (k : String) (v : GoValue) :
    ((r.addParam k v).form = r.form ∧ (r.addParam k v).header = r.header ∧
      (r.addParam k v).body = r.body ∧ (r.addParam k v).method = r.method ∧
      (r.addParam k v).endpoint = r.endpoint ∧
      ∀ k1, k1 ≠ k → url.Values.get ((r.addParam k v).query.getD []) k1
        = url.Values.get (r.query.getD []) k1) ∧
    ((∀ r1, r.setParam k v = Result.ok r1 →
      r1.form = r.form ∧ r1.header = r.header ∧ r1.body = r.body ∧ r1.method = r.method ∧
      r1.endpoint = r.endpoint ∧
      ∀ k1, k1 ≠ k → url.Values.get (r1.query.getD []) k1
        = url.Values.get (r.query.getD []) k1) ∧
     (v ≠ GoValue.nil → ∃ r1, r.setParam k v = Result.ok r1)) ∧
    ((r.setFormParam k v).query = r.query ∧ (r.setFormParam k v).header = r.header ∧
      (r.setFormParam k v).body = r.body ∧ (r.setFormParam k v).method = r.method ∧
      (r.setFormParam k v).endpoint = r.endpoint ∧
      ∀ k1, k1 ≠ k → url.Values.get ((r.setFormParam k v).form.getD []) k1
        = url.Values.get (r.form.getD []) k1) := by
  refine ⟨?_, ⟨?_, fun hv => ⟨_, setParam_ok r k v hv⟩⟩, ?_⟩
  · have hadd : r.addParam k v
        = { r with query := some (url.Values.Add (r.query.getD []) k (fmt.Sprintf_v v)) } := by
      cases hq : r.query <;> simp [request.addParam, hq]
    rw [hadd]
    refine ⟨rfl, rfl, rfl, rfl, rfl, fun k1 hk1 => ?_⟩
    simp [url.Values.Add, get_put_other _ _ _ _ hk1]
  · intro r1 h1
    by_cases hv : v = GoValue.nil
    · subst hv
      simp [request.setParam, reflect.TypeOf] at h1
    · rw [setParam_ok r k v hv] at h1
      cases h1
      refine ⟨rfl, rfl, rfl, rfl, rfl, fun k1 hk1 => ?_⟩
      simp [url.Values.Set, get_put_other _ _ _ _ hk1]
  · rw [setFormParam_eq]
    refine ⟨rfl, rfl, rfl, rfl, rfl, fun k1 hk1 => ?_⟩
    simp [url.Values.Set, get_put_other _ _ _ _ hk1]

/-- C16 (amended): for every request and key, `setParam` given the slice `[1,2]` stores
the single value `[1,2]`, the compact JSON text without a space after the comma. -/
theorem setParam_slice_compact_json (r : request) (k : String) :
    ∃ r1 q, r.setParam k (GoValue.ints (some [1, 2])) = Result.ok r1 ∧ r1.query = some q ∧
      url.Values.get q k = some ["[1,2]"] ∧ url.Values.Encode (url.Values.Set [] k "[1,2]")
        = url.QueryEscape k ++ "=" ++ "%5B1%2C2%5D" := by
  have hj12 : paramText (GoValue.ints (some [1, 2])) = "[1,2]" := by decide
  rw [setParam_ok r k _ (by simp), hj12]
  refine ⟨_, _, rfl, rfl, by simp [url.Values.Set, get_put_same], ?_⟩
  have hq : url.QueryEscape "[1,2]" = "%5B1%2C2%5D" := by decide
  simp [url.Values.Encode, url.Values.encodePairs, url.Values.Set, url.Values.put,
    url.Values.keys, url.Values.index, url.Values.get, dedupKeys, sortKeys, insertKey, hq,
    String.intercalate, String.intercalate.go]

/-- C16 fails as stated: on the scenario request `setParam("ids", [1,2])` stores
`[1,2]`, which is not the text `[1, 2]`. -/
theorem setParam_slice_spaced_counterexample :
    txRequest.setParam "ids" (GoValue.ints (some [1, 2]))
      = Result.ok { txRequest with query := some [("ids", ["[1,2]"])] } ∧
    url.Values.get [("ids", ["[1,2]"])] "ids" ≠ some ["[1, 2]"] := by
  refine ⟨by decide, by decide⟩

/-! ## Slices in the two query setters -/

theorem write_write (h : Heap) (a : Nat) (m m1 : http.Header) :
    (h.write a m).write a m1 = h.write a m1 := by
  simp [Heap.write, List.set_set]

/-- Running `WithHeader` options on a builder that has a header map rewrites that map
in place and leaves the builder as it is. -/
theorem foldl_withHeaderOpts (edits : List HeaderEdit) (heap : Heap) (r : request) (a : Nat)
    (hhdr : r.header = some a) (ha : a < heap.maps.length) :
    (withHeaderOpts edits).foldl (fun w opt => opt w) { heap := heap, r := r }
      = { heap := heap.write a (applyHeaderEdits (heap.read a) edits), r := r } := by
  induction edits generalizing heap with
  | nil =>
    have hself : heap.write a (heap.read a) = heap := by
      cases heap with
      | mk maps =>
        simp only [Heap.write, Heap.read, Heap.mk.injEq]
        apply List.ext_getElem
        · simp
        · intro i h1 h2
          by_cases hia : a = i
          · subst hia
            simp [List.getD_eq_getElem?_getD, List.getElem?_eq_getElem h2]
          · simp [List.getElem_set_ne hia]
    simp [withHeaderOpts, applyHeaderEdits, hself]
  | cons e rest ih =>
    have hstep : WithHeader e.1 e.2.1 e.2.2 { heap := heap, r := r }
        = { heap := heap.write a (applyHeaderEdit (heap.read a) e), r := r } := by
      cases r
      simp only at hhdr
      subst hhdr
      simp [WithHeader, applyHeaderEdit]
    have hlen : a < (heap.write a (applyHeaderEdit (heap.read a) e)).maps.length := by
      rw [length_write]; exact ha
    have ih2 := ih (heap.write a (applyHeaderEdit (heap.read a) e)) hlen
    simp only [withHeaderOpts] at ih2
    simp only [withHeaderOpts, List.map_cons, List.foldl_cons, hstep, ih2,
      read_write_same _ _ _ ha, write_write, applyHeaderEdits]

/-- With a header map on the builder, a well-formed method and URL, the headers of the
returned request are the `WithHeader` options applied, in the order given, to the
header map as rendering found it (after the form `Content-Type` was set when a form
parameter is present). -/
theorem toHttpRequest_withHeader_opts (r : request) (urlParse : String → Bool) (heap : Heap)
    (baseUrl : String) (ctx : Context) (edits : List HeaderEdit) (a : Nat)
    (hhdr : r.header = some a) (ha : a < heap.maps.length)
    (hm : http.validMethod r.method = true)
    (hu : urlParse (baseUrl ++ "/api/" ++ r.endpoint) = true) :
    ∃ w req, r.toHttpRequest urlParse heap baseUrl (some ctx) (withHeaderOpts edits)
        = Result.ok (w, req) ∧
      req.headers w.heap = some (applyHeaderEdits
        (if 0 < url.Values.len (r.form.getD []) then
          http.Header.Set (heap.read a) "Content-Type" "application/x-www-form-urlencoded"
         else heap.read a) edits) := by
  have hvh : (r.validate.1).header = some a := by
    cases hq : r.query <;> cases hf : r.form <;> simp [request.validate, hq, hf, hhdr]
  by_cases hlen : 0 < url.Values.len (r.form.getD [])
  · have hform : r.form = some (r.form.getD []) := by
      cases hf : r.form with
      | none => rw [hf] at hlen; exact absurd hlen (by decide)
      | some f => rfl
    have ha1 : a < ((heap.write a (http.Header.Set (heap.read a) "Content-Type"
        "application/x-www-form-urlencoded")).alloc []).1.maps.length := by
      simp [Heap.alloc, Heap.write]; omega
    rw [toHttpRequest_with_form r urlParse heap baseUrl ctx _ _ a hform hlen hhdr hm hu,
      foldl_withHeaderOpts edits _ _ a hvh ha1]
    refine ⟨_, _, rfl, ?_⟩
    simp only [http.Request.headers, Heap.deref, Option.map_some', hlen, if_true]
    rw [read_write_same _ _ _ ha1, read_alloc_old _ _ _ (by rw [length_write]; exact ha),
      read_write_same _ _ _ ha]
  · have hform : r.form = none ∨ r.form = some [] := by
      cases hf : r.form with
      | none => exact Or.inl rfl
      | some f =>
        rw [hf] at hlen
        exact Or.inr (congrArg some (not_not.mp (fun h => hlen ((len_pos_iff f).mpr h))))
    have ha1 : a < (heap.alloc []).1.maps.length := by
      simp [Heap.alloc]; omega
    rw [toHttpRequest_without_form r urlParse heap baseUrl ctx _ hform hm hu,
      foldl_withHeaderOpts edits _ _ a hvh ha1]
    refine ⟨_, _, rfl, ?_⟩
    simp only [http.Request.headers, Heap.deref, hhdr, Option.map_some', hlen, if_false]
    rw [read_write_same _ _ _ ha1, read_alloc_old _ _ _ ha]

/-- C13 (the code at the failing input): the builder has no header map and the option
is `WithHeader("X", "1", true)`.  The returned request has the nil header map; the
header `X: 1` exists only on the builder.  The same call on a builder with an empty
header map does return `X: 1`. -/
theorem withHeader_nil_header_not_on_request :
    (∃ w req, ({ txRequest with header := none } : request).toHttpRequest scenarioParse ⟨[]⟩
        "http://x" (some ⟨1⟩) (withHeaderOpts [("X", "1", true)]) = Result.ok (w, req) ∧
      req.headers w.heap = none ∧
      w.heap.deref w.r.header = some (applyHeaderEdits [] [("X", "1", true)]) ∧
      applyHeaderEdits [] [("X", "1", true)] = [("X", ["1"])]) ∧
    (∃ w req, txRequest.toHttpRequest scenarioParse ⟨[[]]⟩
        "http://x" (some ⟨1⟩) (withHeaderOpts [("X", "1", true)]) = Result.ok (w, req) ∧
      req.headers w.heap = some [("X", ["1"])]) :=
  ⟨⟨_, _, rfl, by decide, by decide, by decide⟩, ⟨_, _, rfl, by decide⟩⟩

/-- C15: rendering the scenario request (empty header map) twice with the option
`WithHeader("X", "v", false)` leaves header `X` with the value `v` once after the first
render and twice after the second, on the builder and on the second rendered request. -/
theorem render_twice_accumulates :
    ∃ w1 req1 w2 req2,
      txRequest.header ≠ none ∧
      txRequest.toHttpRequest scenarioParse ⟨[[]]⟩ "http://x" (some ⟨1⟩)
        [WithHeader "X" "v" false] = Result.ok (w1, req1) ∧
      w1.r.toHttpRequest scenarioParse w1.heap "http://x" (some ⟨1⟩)
        [WithHeader "X" "v" false] = Result.ok (w2, req2) ∧
      w1.heap.deref w1.r.header = some [("X", ["v"])] ∧
      w2.heap.deref w2.r.header = some [("X", ["v", "v"])] ∧
      req2.headers w2.heap = some [("X", ["v", "v"])] ∧
      w2.heap.deref w2.r.header ≠ w1.heap.deref w1.r.header :=
  ⟨_, _, _, _, by decide, rfl, rfl, by decide, by decide, by decide, by decide⟩

/-! ## The JSON text `setParam` stores for a slice -/

/-- C5 (amended): for every key, `setParam` given a non-nil slice of integers (of an
element type other than `byte`) or of strings returns normally and stores the single
value `[e1,e2,...]`: the elements as decimal numbers or as JSON string literals,
separated by commas without spaces.  A nil slice is stored as `null` and a `[]byte` as
the JSON string of its base64 text.  `setParam("ids", [1,2])` stores `[1,2]`, and the
string slice `a`, `b` is stored as `["a","b"]`. -/
theorem setParam_slice_json_array (r : request) (k : String) (l : List Int)
    (ls : List String) (bs : List Nat) :
    (∃ r1 q, r.setParam k (GoValue.ints (some l)) = Result.ok r1 ∧ r1.query = some q ∧
      url.Values.get q k = some ["[" ++ ",".intercalate (l.map toString) ++ "]"]) ∧
    (∃ r1 q, r.setParam k (GoValue.strs (some ls)) = Result.ok r1 ∧ r1.query = some q ∧
      url.Values.get q k = some ["[" ++ ",".intercalate (ls.map json.quote) ++ "]"]) ∧
    (∃ r1 q, r.setParam k (GoValue.ints none) = Result.ok r1 ∧ r1.query = some q ∧
      url.Values.get q k = some ["null"]) ∧
    (∃ r1 q, r.setParam k (GoValue.strs none) = Result.ok r1 ∧ r1.query = some q ∧
      url.Values.get q k = some ["null"]) ∧
    (∃ r1 q, r.setParam k (GoValue.bytes (some bs)) = Result.ok r1 ∧ r1.query = some q ∧
      url.Values.get q k
        = some ["\"" ++ String.mk (json.base64 (bs.map (fun b => b % 256))) ++ "\""]) ∧
    (∃ r1 q, r.setParam "ids" (GoValue.ints (some [1, 2])) = Result.ok r1 ∧
      r1.query = some q ∧ url.Values.get q "ids" = some ["[1,2]"]) ∧
    (∃ r1 q, r.setParam k (GoValue.strs (some ["a", "b"])) = Result.ok r1 ∧
      r1.query = some q ∧ url.Values.get q k = some ["[\"a\",\"b\"]"]) := by
  have key : ∀ (key : String) (v : GoValue) (text : String), v ≠ GoValue.nil →
      paramText v = text →
      ∃ r1 q, r.setParam key v = Result.ok r1 ∧ r1.query = some q ∧
        url.Values.get q key = some [text] := by
    intro key v text hv ht
    rw [setParam_ok r key v hv, ht]
    exact ⟨_, _, rfl, rfl, by simp [url.Values.Set, get_put_same]⟩
  refine ⟨key k _ _ (by simp) ?_, key k _ _ (by simp) ?_, key k _ _ (by simp) ?_,
    key k _ _ (by simp) ?_, key k _ _ (by simp) ?_, key "ids" _ _ (by simp) ?_,
    key k _ _ (by simp) ?_⟩
  · simp [paramText, reflect.TypeOf, json.Marshal]
  · simp [paramText, reflect.TypeOf, json.Marshal]
  · simp [paramText, reflect.TypeOf, json.Marshal]
  · simp [paramText, reflect.TypeOf, json.Marshal]
  · simp [paramText, reflect.TypeOf, json.Marshal]
  · decide
  · decide

/-- C5 fails as stated: for the nil integer slice `setParam` stores `null`, and for the
byte slice `1, 2` it stores the JSON string `"AQI="`; neither is the JSON array of the
slice (`[]` and `[1,2]`). -/
theorem setParam_slice_not_array_counterexample :
    txRequest.setParam "ids" (GoValue.ints none)
      = Result.ok { txRequest with query := some [("ids", ["null"])] } ∧
    txRequest.setParam "ids" (GoValue.bytes (some [1, 2]))
      = Result.ok { txRequest with query := some [("ids", ["\"AQI=\""])] } ∧
    "null" ≠ "[]" ∧ "\"AQI=\"" ≠ "[1,2]" := by
  refine ⟨by decide, by decide, by decide, by decide⟩

/-! ## Method, target and query of the rendered request -/

